import Mathlib

/-!
Verification of the treelist generator (`treelist-gen6.6.py`).

The script has two pipelines over a flat list of rclone `lsjson` records
(each record: `Path`, `IsDir`, `Size`):
  * a depth aggregator (`group_by_depth_and_sum_size`, `convert_size`), and
  * a tree builder plus renderer (`build_tree_structure`,
    `generate_tree_html`, `generate_html_from_json`).

Python dicts are modelled as association lists in insertion order
(updating an existing key keeps its position, a fresh key is appended at
the end, exactly as CPython dicts behave).  Python `int` is `Int`,
true division is modelled on `Rat`, and code that can raise an exception
returns `Option` or `Except`.
-/

/-- One record of the rclone `lsjson` output: the flat entry consumed by
both pipelines. -/
structure Entry where
  Path : String
  IsDir : Bool
  Size : Int
deriving DecidableEq, Repr

/-- `d[k]` for an insertion-ordered dict. -/
def lookupA {α : Type} : List (String × α) → String → Option α
  | [], _ => none
  | (k1, v) :: rest, k => if k1 = k then some v else lookupA rest k

/-- `d[k] = v` for an insertion-ordered dict: an existing key keeps its
position, a fresh key is appended at the end. -/
def updateA {α : Type} : List (String × α) → String → α → List (String × α)
  | [], k, v => [(k, v)]
  | (k1, v1) :: rest, k, v =>
    if k1 = k then (k, v) :: rest else (k1, v1) :: updateA rest k v

/-- `grouped[dir_path] = 0` if absent, then `grouped[dir_path] += size`
(lines 26-28 of the source). -/
def addToKey : List (String × Int) → String → Int → List (String × Int)
  | [], k, v => [(k, v)]
  | (k1, v1) :: rest, k, v =>
    if k1 = k then (k, v1 + v) :: rest else (k1, v1) :: addToKey rest k v

/-- Python `s.split('/')` on the underlying character list: splitting on
every slash, keeping empty segments; the empty list splits to `[[]]`
just as `"".split('/') == ['']`. -/
def splitSlash : List Char → List (List Char)
  | [] => [[]]
  | c :: rest =>
    if c = '/' then [] :: splitSlash rest
    else
      match splitSlash rest with
      | seg :: segs => (c :: seg) :: segs
      | [] => [[c]]

/-- Python `path.split('/')` (line 23 of the source). -/
def pySplit (s : String) : List String :=
  (splitSlash s.data).map (fun cs => String.mk cs)

/-- Python `'/'.join(parts)`. -/
def joinSlash (parts : List String) : String :=
  String.intercalate "/" parts

/-- `group_by_depth_and_sum_size(files, depth)` (lines 16-29): skip
directory records, truncate each file path to its first `depth` segments
(depth 0 keeps the full path), and accumulate sizes per key. -/
def group_by_depth_and_sum_size (files : List Entry) (depth : Nat) :
    List (String × Int) :=
  files.foldl
    (fun grouped file =>
      if file.IsDir then grouped
      else
        let path_parts := pySplit file.Path
        let dir_path :=
          if depth > 0 then joinSlash (path_parts.take depth) else file.Path
        addToKey grouped dir_path file.Size)
    []

/-- Python `s.lower()` restricted to the ASCII range (`Char.toLower`
lowercases exactly the basic latin letters; every unit string the script
compares against is ASCII). -/
def py_lower (s : String) : String :=
  String.mk (s.data.map Char.toLower)

/-- `convert_size(size_bytes, unit)` (lines 31-38): divide by the divisor
looked up for the lowercased unit, defaulting to 1.  Python's float
division is modelled as exact division on `Rat`. -/
def convert_size (size_bytes : Int) (unit : String) : Rat :=
  let units : List (String × Int) :=
    [("kb", 1024), ("mb", 1024 ^ 2), ("gb", 1024 ^ 3)]
  (size_bytes : Rat) / (((lookupA units (py_lower unit)).getD 1 : Int) : Rat)

/-- The depth-`depth` group key of a file entry, exactly as computed at
line 24 of the source. -/
def keyOf (depth : Nat) (f : Entry) : String :=
  if depth > 0 then joinSlash ((pySplit f.Path).take depth) else f.Path

/-- Sum of the sizes held in a grouped mapping. -/
def sumVals (g : List (String × Int)) : Int :=
  (g.map (fun kv => kv.2)).sum

/-! ### Lemmas about the grouped-mapping operations -/

theorem sumVals_addToKey (g : List (String × Int)) (k : String) (v : Int) :
    sumVals (addToKey g k v) = sumVals g + v := by
  induction g with
  | nil => simp [addToKey, sumVals]
  | cons kv rest ih =>
    obtain ⟨k1, v1⟩ := kv
    by_cases h : k1 = k
    · simp [addToKey, h, sumVals]
      ring
    · simp [addToKey, h, sumVals] at ih ⊢
      omega

theorem lookupA_addToKey_self (g : List (String × Int)) (k : String) (v : Int) :
    lookupA (addToKey g k v) k = some ((lookupA g k).getD 0 + v) := by
  induction g with
  | nil => simp [addToKey, lookupA]
  | cons kv rest ih =>
    obtain ⟨k1, v1⟩ := kv
    by_cases h : k1 = k
    · simp [addToKey, h, lookupA]
    · simp [addToKey, h, lookupA, ih]

theorem lookupA_addToKey_ne (g : List (String × Int)) (k k1 : String) (v : Int)
    (h : k1 ≠ k) : lookupA (addToKey g k1 v) k = lookupA g k := by
  induction g with
  | nil => simp [addToKey, lookupA, h]
  | cons kv rest ih =>
    obtain ⟨k2, v2⟩ := kv
    by_cases h2 : k2 = k1
    · simp [addToKey, h2, lookupA, h]
    · simp [addToKey, h2, lookupA, ih]

/-- The per-file step of `group_by_depth_and_sum_size`, with the local
`path_parts` and `dir_path` bindings inlined (`keyOf`). -/
def groupStep (depth : Nat) (grouped : List (String × Int)) (file : Entry) :
    List (String × Int) :=
  if file.IsDir then grouped else addToKey grouped (keyOf depth file) file.Size

theorem group_eq_foldl (files : List Entry) (depth : Nat) :
    group_by_depth_and_sum_size files depth = files.foldl (groupStep depth) [] :=
  rfl

theorem group_foldl_sum (depth : Nat) :
    ∀ (files : List Entry) (g : List (String × Int)),
      sumVals (files.foldl (groupStep depth) g)
      = sumVals g + ((files.filter (fun f => !f.IsDir)).map (fun f => f.Size)).sum
  | [], g => by simp
  | f :: rest, g => by
    by_cases h : f.IsDir
    · rw [List.foldl_cons, groupStep, if_pos (by simp [h])]
      rw [group_foldl_sum depth rest g]
      simp [List.filter_cons, h]
    · rw [List.foldl_cons, groupStep, if_neg (by simp [h])]
      rw [group_foldl_sum depth rest]
      rw [sumVals_addToKey]
      simp [List.filter_cons, h]
      ring

theorem group_foldl_lookup (depth : Nat) (k : String) :
    ∀ (files : List Entry) (g : List (String × Int)),
      lookupA (files.foldl (groupStep depth) g) k
      = (if files.any (fun f => !f.IsDir && (keyOf depth f == k)) then
          some ((lookupA g k).getD 0 +
            ((files.filter (fun f => !f.IsDir && (keyOf depth f == k))).map
              (fun f => f.Size)).sum)
        else lookupA g k)
  | [], g => by simp
  | f :: rest, g => by
    by_cases hd : f.IsDir
    · rw [List.foldl_cons, groupStep, if_pos (by simp [hd])]
      rw [group_foldl_lookup depth k rest g]
      simp [List.any_cons, List.filter_cons, hd]
    · by_cases hk : keyOf depth f = k
      · rw [List.foldl_cons, groupStep, if_neg (by simp [hd]), hk]
        rw [group_foldl_lookup depth k rest]
        by_cases hrest : rest.any (fun f => !f.IsDir && (keyOf depth f == k))
        · rw [if_pos hrest]
          rw [lookupA_addToKey_self]
          simp [List.any_cons, List.filter_cons, hd, hk]
          ring
        · rw [if_neg hrest]
          rw [lookupA_addToKey_self]
          have hfil : rest.filter (fun f => !f.IsDir && (keyOf depth f == k)) = [] := by
            rw [List.filter_eq_nil_iff]
            intro a ha hcontra
            exact hrest (List.any_eq_true.mpr ⟨a, ha, hcontra⟩)
          simp [List.any_cons, List.filter_cons, hd, hk, hfil]
      · rw [List.foldl_cons, groupStep, if_neg (by simp [hd])]
        rw [group_foldl_lookup depth k rest]
        rw [lookupA_addToKey_ne _ _ _ _ hk]
        simp [List.any_cons, List.filter_cons, hd, hk]

/-! ### Claim C4: conservation of total size in the depth aggregator -/

/-- C4.  For every entry list and every depth d >= 1, the sum over all
groups of the aggregator's group sizes (before unit conversion) equals
the sum of the sizes of all file (non-directory) entries in the input. -/
theorem claim_C4_group_sum_conservation (files : List Entry) (depth : Nat)
    (h : 1 ≤ depth) :
    sumVals (group_by_depth_and_sum_size files depth)
      = ((files.filter (fun f => !f.IsDir)).map (fun f => f.Size)).sum := by
  rw [group_eq_foldl]
  rw [group_foldl_sum]
  simp [sumVals]

/-- Witness for C4 at a concrete input. -/
theorem claim_C4_group_sum_conservation_witness :
    sumVals (group_by_depth_and_sum_size
        [⟨"a/b/f1.txt", false, 100⟩, ⟨"a/b", true, 0⟩, ⟨"a/c/f2.txt", false, 50⟩] 1)
      = 150 := by
  rw [claim_C4_group_sum_conservation _ 1 (by decide)]
  decide

/-! ### Claim C5: the aggregator's grouping rule -/

/-- C5.  The aggregator maps each non-directory entry to the group key
`keyOf depth` (the first `depth` path segments rejoined with a slash when
`depth > 0`, the file's full path when `depth = 0`); directory entries
never form a group and contribute no size; sizes of files sharing a key
are summed (an unseen key is seeded at zero, so the total for a key is
exactly the sum of its files' sizes). -/
theorem claim_C5_grouping_rule (files : List Entry) (depth : Nat) (k : String) :
    lookupA (group_by_depth_and_sum_size files depth) k
      = (if files.any (fun f => !f.IsDir && (keyOf depth f == k)) then
          some (((files.filter (fun f => !f.IsDir && (keyOf depth f == k))).map
            (fun f => f.Size)).sum)
        else none) := by
  rw [group_eq_foldl]
  rw [group_foldl_lookup]
  by_cases hany : files.any (fun f => !f.IsDir && (keyOf depth f == k))
  · rw [if_pos hany, if_pos hany]
    simp [lookupA]
  · rw [if_neg hany, if_neg hany]
    simp [lookupA]

/-! ### Claim C7: unit conversion divisors and the unrecognized-unit fallback -/

/-- C7.  Unit conversion divides by 1024 for "kb", 1024^2 for "mb",
1024^3 for "gb", and by 1 for "bytes" or any unit whose lowercase form is
unrecognized; in particular a 2048-byte group with unit "foo" converts to
2048 (printed as `2048.00`). -/
theorem claim_C7_unit_divisors :
    (∀ s : Int,
      convert_size s "bytes" = (s : Rat)
      ∧ convert_size s "kb" = (s : Rat) / 1024
      ∧ convert_size s "mb" = (s : Rat) / 1024 ^ 2
      ∧ convert_size s "gb" = (s : Rat) / 1024 ^ 3)
    ∧ (∀ (s : Int) (u : String),
        py_lower u ≠ "kb" → py_lower u ≠ "mb" → py_lower u ≠ "gb" →
        convert_size s u = (s : Rat))
    ∧ convert_size 2048 "foo" = 2048 := by
  refine ⟨fun s => ⟨?_, ?_, ?_, ?_⟩, fun s u hkb hmb hgb => ?_, ?_⟩
  · simp only [convert_size]
    rw [show (lookupA [("kb", (1024 : Int)), ("mb", 1024 ^ 2), ("gb", 1024 ^ 3)]
      (py_lower "bytes")).getD 1 = (1 : Int) from by decide]
    norm_num
  · simp only [convert_size]
    rw [show (lookupA [("kb", (1024 : Int)), ("mb", 1024 ^ 2), ("gb", 1024 ^ 3)]
      (py_lower "kb")).getD 1 = (1024 : Int) from by decide]
    norm_num
  · simp only [convert_size]
    rw [show (lookupA [("kb", (1024 : Int)), ("mb", 1024 ^ 2), ("gb", 1024 ^ 3)]
      (py_lower "mb")).getD 1 = (1024 ^ 2 : Int) from by decide]
    norm_num
  · simp only [convert_size]
    rw [show (lookupA [("kb", (1024 : Int)), ("mb", 1024 ^ 2), ("gb", 1024 ^ 3)]
      (py_lower "gb")).getD 1 = (1024 ^ 3 : Int) from by decide]
    norm_num
  · show (s : Rat) / _ = (s : Rat)
    rw [lookupA, if_neg (fun h => hkb h.symm)]
    rw [lookupA, if_neg (fun h => hmb h.symm)]
    rw [lookupA, if_neg (fun h => hgb h.symm)]
    rw [lookupA]
    norm_num
  · simp only [convert_size]
    rw [show (lookupA [("kb", (1024 : Int)), ("mb", 1024 ^ 2), ("gb", 1024 ^ 3)]
      (py_lower "foo")).getD 1 = (1 : Int) from by decide]
    norm_num

/-- Witness for C7's unrecognized-unit conjunct at a concrete input. -/
theorem claim_C7_unit_divisors_witness :
    convert_size 2048 "FOO" = (2048 : Rat) :=
  claim_C7_unit_divisors.2.1 2048 "FOO" (by decide) (by decide) (by decide)

/-! ### Claim C10: case-insensitivity of the unit string -/

theorem char_toLower_idem (c : Char) : c.toLower.toLower = c.toLower := by
  unfold Char.toLower
  by_cases h : c.toNat ≥ 65 ∧ c.toNat ≤ 90
  · rw [if_pos h]
    have hval : (c.toNat + 32).isValidChar := by
      left
      omega
    have htn : (Char.ofNat (c.toNat + 32)).toNat = c.toNat + 32 := by
      rw [Char.ofNat, dif_pos hval]
      simp [Char.ofNatAux, Char.toNat, UInt32.toNat]
    rw [htn]
    rw [if_neg (by omega)]
  · rw [if_neg h, if_neg h]

theorem py_lower_idem (s : String) : py_lower (py_lower s) = py_lower s := by
  unfold py_lower
  rw [List.map_map]
  congr 1
  apply List.map_congr_left
  intro c _
  exact char_toLower_idem c

/-- C10.  Unit conversion is case-insensitive in the unit string: for
every size and every unit string, converting with the unit yields the
same result as converting with its lowercased form. -/
theorem claim_C10_unit_case_insensitive (s : Int) (u : String) :
    convert_size s u = convert_size s (py_lower u) := by
  simp only [convert_size]
  rw [py_lower_idem]

/-! ### The tree builder (`build_tree_structure`, lines 60-110)

The raw in-construction tree maps each segment name to a value that is
normally a node dict `{'_size': …, '_children': …, '_isdir': …}`; the
source's fallback branch (lines 88-94) guards against a value that is a
bare size instead of a dict, so values are modelled by a sum type.  A
leaf update on a bare value (lines 83-86) would raise a `TypeError` in
Python, which the model renders as `none`. -/
inductive RVal : Type where
  | node (size : Int) (isdir : Bool) (children : List (String × RVal)) : RVal
  | bare (n : Int) : RVal
deriving Repr

/-- The raw tree: a Python dict from segment name to `RVal`. -/
abbrev RTree := List (String × RVal)

/-- Python `path.rstrip('/')` on the underlying character list. -/
def rstripSlash (cs : List Char) : List Char :=
  (cs.reverse.dropWhile (fun c => c = '/')).reverse

/-- `path.split('/') if path else []` applied to the already-stripped
path (lines 64-66 of the source). -/
def pathParts (path : String) : List String :=
  let stripped := rstripSlash path.data
  if stripped.isEmpty then []
  else (splitSlash stripped).map (fun cs => String.mk cs)

/-- The walk of lines 70-97 along the remaining `parts`, acting on the
children dict `current`: empty segments are skipped; at the final
segment a directory sets `_isdir` and a file adds its size; at an
intermediate segment the entry's size is added and the walk descends
(creating a default node when the segment is absent, and promoting a
bare value to a node as in the fallback at lines 88-94). -/
def insertParts : RTree → List String → Bool → Int → Option RTree
  | t, [], _, _ => some t
  | t, p :: rest, is_dir, size =>
    if p = "" then insertParts t rest is_dir size
    else
      let node := (lookupA t p).getD (RVal.node 0 false [])
      if rest.isEmpty then
        match node with
        | RVal.node s d c =>
          if is_dir then some (updateA t p (RVal.node s true c))
          else some (updateA t p (RVal.node (s + size) d c))
        | RVal.bare _ => none
      else
        match node with
        | RVal.node s d c =>
          match insertParts c rest is_dir size with
          | some c2 => some (updateA t p (RVal.node (s + size) d c2))
          | none => none
        | RVal.bare n =>
          match insertParts [] rest is_dir size with
          | some c2 => some (updateA t p (RVal.node (n + size) false c2))
          | none => none

/-- Processing of one entry (lines 63-97): strip and split the path and
walk it, with size 0 for a directory entry. -/
def insertEntry (t : RTree) (e : Entry) : Option RTree :=
  insertParts t (pathParts e.Path) e.IsDir (if e.IsDir then 0 else e.Size)

/-- The `for entry in entries` loop of line 63. -/
def buildRawAux : RTree → List Entry → Option RTree
  | t, [] => some t
  | t, e :: rest =>
    match insertEntry t e with
    | some t2 => buildRawAux t2 rest
    | none => none

/-- The raw tree after the construction loop of `build_tree_structure`. -/
def buildRaw (entries : List Entry) : Option RTree :=
  buildRawAux [] entries

/-- A value of the cleaned tree returned by `build_tree_structure`: the
`clean_node` helper (lines 99-108) re-packages each node dict as its
children dict with the `_size` and `_isdir` attributes re-attached
(modelled as fields), and passes every non-dict value through
unchanged.  (In Python the attributes share one dict with the child
names, so a child literally named `_size` or `_isdir` would be
clobbered by the attribute; the renderer skips those names either way,
see `renderChildren`.) -/
inductive CVal : Type where
  | cnode (size : Int) (isdir : Bool) (children : List (String × CVal)) : CVal
  | cbare (n : Int) : CVal
deriving Repr

/-- The cleaned tree: a dict from segment name to `CVal`. -/
abbrev CTree := List (String × CVal)

mutual

/-- `clean_node` on one raw value. -/
def cleanV : RVal → CVal
  | RVal.node s d c => CVal.cnode s d (cleanL c)
  | RVal.bare n => CVal.cbare n

/-- `clean_node` on a children dict (lines 99-108). -/
def cleanL : RTree → CTree
  | [] => []
  | (k, v) :: rest => (k, cleanV v) :: cleanL rest

end

/-- `build_tree_structure(entries)` (lines 60-110): the construction
loop followed by `clean_node`; `none` models the `TypeError` a leaf
update on a bare value would raise. -/
def build_tree_structure (entries : List Entry) : Option CTree :=
  (buildRaw entries).map cleanL

/-! ### Observations on trees: path lookup and node attributes -/

/-- Lookup of the raw value at a (nonempty) path of segment names,
descending through children dicts. -/
def lookupPath : RTree → List String → Option RVal
  | _, [] => none
  | t, k :: rest =>
    match lookupA t k with
    | none => none
    | some v =>
      match rest with
      | [] => some v
      | _ :: _ =>
        match v with
        | RVal.node _ _ c => lookupPath c rest
        | RVal.bare _ => none

/-- The `_size` and `_isdir` attributes of a raw node value. -/
def nodeAttrs : RVal → Option (Int × Bool)
  | RVal.node s d _ => some (s, d)
  | RVal.bare _ => none

/-- Size and directory flag of the raw node at a path. -/
def attrsPath (t : RTree) (q : List String) : Option (Int × Bool) :=
  (lookupPath t q).bind nodeAttrs

/-- Lookup in a cleaned tree. -/
def cLookupPath : CTree → List String → Option CVal
  | _, [] => none
  | t, k :: rest =>
    match lookupA t k with
    | none => none
    | some v =>
      match rest with
      | [] => some v
      | _ :: _ =>
        match v with
        | CVal.cnode _ _ c => cLookupPath c rest
        | CVal.cbare _ => none

/-- The `_size` and `_isdir` attributes of a cleaned node value. -/
def cNodeAttrs : CVal → Option (Int × Bool)
  | CVal.cnode s d _ => some (s, d)
  | CVal.cbare _ => none

/-- Size and directory flag of the cleaned node at a path. -/
def cAttrsPath (t : CTree) (q : List String) : Option (Int × Bool) :=
  (cLookupPath t q).bind cNodeAttrs

mutual

/-- No bare (non-dict) value occurs anywhere in a raw value. -/
def noBareV : RVal → Bool
  | RVal.node _ _ c => noBareL c
  | RVal.bare _ => false

/-- No bare (non-dict) value occurs anywhere in a raw tree. -/
def noBareL : RTree → Bool
  | [] => true
  | (_, v) :: rest => noBareV v && noBareL rest

end

/-- The filtered segment list of an entry: the nonempty segments of its
stripped path, i.e. exactly the segments at which the walk of
`insertParts` touches a node. -/
def fparts (e : Entry) : List String :=
  (pathParts e.Path).filter (fun s => s ≠ "")

/-! ### Helper lemmas for the builder proofs -/

theorem lookupA_updateA_self {α : Type} (t : List (String × α)) (k : String) (v : α) :
    lookupA (updateA t k v) k = some v := by
  induction t with
  | nil => simp [updateA, lookupA]
  | cons kv rest ih =>
    obtain ⟨k1, v1⟩ := kv
    by_cases h : k1 = k
    · simp [updateA, h, lookupA]
    · simp [updateA, h, lookupA, ih]

theorem lookupA_updateA_ne {α : Type} (t : List (String × α)) (k k1 : String) (v : α)
    (h : k1 ≠ k) : lookupA (updateA t k1 v) k = lookupA t k := by
  induction t with
  | nil => simp [updateA, lookupA, h]
  | cons kv rest ih =>
    obtain ⟨k2, v2⟩ := kv
    by_cases h2 : k2 = k1
    · subst h2
      simp [updateA, lookupA, h]
    · simp [updateA, h2, lookupA, ih]

theorem noBareV_of_lookupA (t : RTree) (k : String) (v : RVal)
    (ht : noBareL t = true) (hv : lookupA t k = some v) : noBareV v = true := by
  induction t with
  | nil => simp [lookupA] at hv
  | cons kv rest ih =>
    obtain ⟨k1, v1⟩ := kv
    rw [noBareL] at ht
    simp only [Bool.and_eq_true] at ht
    rw [lookupA] at hv
    by_cases h : k1 = k
    · rw [if_pos h] at hv
      cases hv
      exact ht.1
    · rw [if_neg h] at hv
      exact ih ht.2 hv

theorem noBareL_updateA (t : RTree) (k : String) (v : RVal)
    (ht : noBareL t = true) (hv : noBareV v = true) :
    noBareL (updateA t k v) = true := by
  induction t with
  | nil => simp [updateA, noBareL, hv]
  | cons kv rest ih =>
    obtain ⟨k1, v1⟩ := kv
    rw [noBareL] at ht
    simp only [Bool.and_eq_true] at ht
    by_cases h : k1 = k
    · simp [updateA, h, noBareL, hv, ht.2]
    · simp [updateA, h, noBareL, ht.1, ih ht.2]

/-- Whether the final element of a segment list is a nonempty segment
(vacuously true for the empty list).  Paths produced by `pathParts` have
this shape because trailing slashes are stripped before splitting. -/
def lastNE : List String → Bool
  | [] => true
  | [s] => decide (s ≠ "")
  | _ :: s2 :: rest => lastNE (s2 :: rest)

/-- The analogue of `lastNE` for a list of character lists. -/
def lastNEC : List (List Char) → Bool
  | [] => true
  | [cs] => !cs.isEmpty
  | _ :: x :: rest => lastNEC (x :: rest)

/-- Whether the final character of a character list is not a slash
(vacuously true for the empty list). -/
def charLastNE : List Char → Bool
  | [] => true
  | [c] => decide (c ≠ '/')
  | _ :: c2 :: rest => charLastNE (c2 :: rest)

theorem charLastNE_append_singleton :
    ∀ (l : List Char) (c : Char), charLastNE (l ++ [c]) = decide (c ≠ '/')
  | [], c => rfl
  | [a], c => rfl
  | a :: b :: r, c => by
    rw [List.cons_append, List.cons_append]
    rw [show charLastNE (a :: (b :: (r ++ [c]))) = charLastNE (b :: (r ++ [c])) from rfl]
    rw [← List.cons_append]
    exact charLastNE_append_singleton (b :: r) c

theorem charLastNE_dropWhile_reverse :
    ∀ l : List Char,
      charLastNE ((l.dropWhile (fun c => c = '/')).reverse) = true
  | [] => rfl
  | c :: r => by
    by_cases h : c = '/'
    · rw [List.dropWhile_cons_of_pos (by simp [h])]
      exact charLastNE_dropWhile_reverse r
    · rw [List.dropWhile_cons_of_neg (by simp [h])]
      rw [List.reverse_cons]
      rw [charLastNE_append_singleton]
      simp [h]

theorem charLastNE_rstrip (cs : List Char) : charLastNE (rstripSlash cs) = true :=
  charLastNE_dropWhile_reverse cs.reverse

theorem splitSlash_ne_nil : ∀ cs : List Char, splitSlash cs ≠ []
  | [] => by simp [splitSlash]
  | c :: rest => by
    rw [splitSlash]
    by_cases h : c = '/'
    · simp [h]
    · rw [if_neg h]
      rcases hx : splitSlash rest with _ | ⟨seg, segs⟩
      · simp
      · simp

theorem splitSlash_lastNEC :
    ∀ cs : List Char, cs ≠ [] → charLastNE cs = true →
      lastNEC (splitSlash cs) = true
  | [], hne, _ => absurd rfl hne
  | [c], _, hc => by
    rw [charLastNE] at hc
    rw [splitSlash]
    rw [if_neg (by simpa using hc)]
    rw [splitSlash]
    rfl
  | c :: c2 :: rest, _, hc => by
    rw [charLastNE] at hc
    have ih := splitSlash_lastNEC (c2 :: rest) (by simp) hc
    rw [splitSlash]
    by_cases h : c = '/'
    · rw [if_pos h]
      rcases hx : splitSlash (c2 :: rest) with _ | ⟨x, xs⟩
      · exact absurd hx (splitSlash_ne_nil _)
      · rw [hx] at ih
        rw [show lastNEC ([] :: x :: xs) = lastNEC (x :: xs) from rfl]
        exact ih
    · rw [if_neg h]
      rcases hx : splitSlash (c2 :: rest) with _ | ⟨seg, segs⟩
      · exact absurd hx (splitSlash_ne_nil _)
      · rw [hx] at ih
        rcases segs with _ | ⟨y, ys⟩
        · rfl
        · rw [show lastNEC ((c :: seg) :: y :: ys) = lastNEC (y :: ys) from rfl]
          rw [show lastNEC (seg :: y :: ys) = lastNEC (y :: ys) from rfl] at ih
          exact ih

theorem string_mk_ne_empty (cs : List Char) (h : cs ≠ []) : String.mk cs ≠ "" := by
  intro hcontra
  apply h
  have := congrArg String.data hcontra
  exact this

theorem lastNE_map_mk :
    ∀ segs : List (List Char), lastNEC segs = true →
      lastNE (segs.map (fun cs => String.mk cs)) = true
  | [], _ => rfl
  | [cs], h => by
    rw [lastNEC] at h
    rw [List.map_cons, List.map_nil, lastNE]
    simp only [Bool.not_eq_eq_eq_not, Bool.not_true] at h
    have : cs ≠ [] := by
      intro hc
      rw [hc] at h
      simp [List.isEmpty] at h
    simpa using string_mk_ne_empty cs this
  | cs :: x :: rest, h => by
    rw [show lastNEC (cs :: x :: rest) = lastNEC (x :: rest) from rfl] at h
    rw [List.map_cons]
    rw [List.map_cons]
    rw [show lastNE (String.mk cs :: String.mk x :: List.map (fun cs => String.mk cs) rest)
        = lastNE (String.mk x :: List.map (fun cs => String.mk cs) rest) from rfl]
    rw [← List.map_cons]
    exact lastNE_map_mk (x :: rest) h

theorem pathParts_lastNE (path : String) : lastNE (pathParts path) = true := by
  rw [pathParts]
  by_cases h : (rstripSlash path.data).isEmpty
  · simp [h, lastNE]
  · rw [if_neg (by simpa using h)]
    apply lastNE_map_mk
    apply splitSlash_lastNEC
    · intro hc
      rw [hc] at h
      simp [List.isEmpty] at h
    · exact charLastNE_rstrip path.data

theorem filter_ne_nil_of_lastNE :
    ∀ ps : List String, ps ≠ [] → lastNE ps = true →
      ps.filter (fun s => s ≠ "") ≠ []
  | [], hne, _ => absurd rfl hne
  | [s], _, h => by
    rw [lastNE] at h
    simp only [decide_eq_true_eq] at h
    simp [List.filter, h]
  | s :: s2 :: rest, _, h => by
    rw [show lastNE (s :: s2 :: rest) = lastNE (s2 :: rest) from rfl] at h
    have ih := filter_ne_nil_of_lastNE (s2 :: rest) (by simp) h
    rw [List.filter_cons]
    by_cases hs : s = ""
    · simpa [hs] using ih
    · simp [hs]

theorem lastNE_tail (p : String) (rest : List String) (hne : rest ≠ [])
    (h : lastNE (p :: rest) = true) : lastNE rest = true := by
  rcases rest with _ | ⟨s2, r⟩
  · exact absurd rfl hne
  · exact h

/-! ### The effect of one walk on the attributes at a path -/

/-- Declarative description of how one call `insertParts t ps is_dir size`
changes the attributes stored at path `q`: nothing outside the nonempty
prefixes of the walked (nonempty-segment) chain changes; a proper prefix
gains `size`; the full chain gains `size` for a file and gets its flag
set for a directory.  A node touched for the first time starts from the
default attributes `(0, false)`. -/
def partsUpd (ps : List String) (is_dir : Bool) (size : Int) (q : List String)
    (a : Option (Int × Bool)) : Option (Int × Bool) :=
  if q ≠ [] ∧ q <+: ps.filter (fun s => s ≠ "") then
    let p0 := a.getD (0, false)
    if q = ps.filter (fun s => s ≠ "") then
      if is_dir then some (p0.1, true) else some (p0.1 + size, p0.2)
    else some (p0.1 + size, p0.2)
  else a

theorem partsUpd_nil_q (ps : List String) (d : Bool) (sz : Int)
    (a : Option (Int × Bool)) : partsUpd ps d sz [] a = a := by
  simp [partsUpd]

theorem partsUpd_skip (rest : List String) (d : Bool) (sz : Int)
    (q : List String) (a : Option (Int × Bool)) :
    partsUpd ("" :: rest) d sz q a = partsUpd rest d sz q a := by
  simp [partsUpd, List.filter_cons]

theorem partsUpd_leaf_self (p : String) (hp : p ≠ "") (d : Bool) (sz : Int)
    (a : Option (Int × Bool)) :
    partsUpd [p] d sz [p] a
      = (if d then some ((a.getD (0, false)).1, true)
         else some ((a.getD (0, false)).1 + sz, (a.getD (0, false)).2)) := by
  rw [partsUpd]
  rw [show List.filter (fun s => s ≠ "") [p] = [p] from by simp [List.filter_cons, hp]]
  rw [if_pos ⟨by simp, List.prefix_refl _⟩]
  simp

theorem partsUpd_other (ps : List String) (d : Bool) (sz : Int)
    (k : String) (q : List String) (a : Option (Int × Bool))
    (h : ¬ (k :: q) <+: ps.filter (fun s => s ≠ "")) :
    partsUpd ps d sz (k :: q) a = a := by
  rw [partsUpd, if_neg]
  intro hcontra
  exact h hcontra.2

theorem filter_cons_ne_empty (p : String) (hp : p ≠ "") (rest : List String) :
    List.filter (fun s => s ≠ "") (p :: rest)
      = p :: rest.filter (fun s => s ≠ "") := by
  rw [List.filter_cons]
  rw [if_pos (by simp [hp])]

theorem partsUpd_inter_self (p : String) (hp : p ≠ "") (rest : List String)
    (hf : rest.filter (fun s => s ≠ "") ≠ []) (d : Bool) (sz : Int)
    (a : Option (Int × Bool)) :
    partsUpd (p :: rest) d sz [p] a
      = some ((a.getD (0, false)).1 + sz, (a.getD (0, false)).2) := by
  rw [partsUpd]
  rw [filter_cons_ne_empty p hp rest]
  rw [if_pos ⟨by simp, (List.cons_prefix_cons).mpr ⟨rfl, List.nil_prefix⟩⟩]
  rw [if_neg (fun hc => by
    injection hc with h1 h2
    exact hf h2.symm)]

theorem partsUpd_inter_deep (p : String) (hp : p ≠ "") (rest : List String)
    (d : Bool) (sz : Int) (q : List String) (hq : q ≠ [])
    (a : Option (Int × Bool)) :
    partsUpd (p :: rest) d sz (p :: q) a = partsUpd rest d sz q a := by
  rw [partsUpd, partsUpd]
  rw [filter_cons_ne_empty p hp rest]
  by_cases hpre : q <+: rest.filter (fun s => s ≠ "")
  · conv_rhs => rw [if_pos ⟨hq, hpre⟩]
    rw [if_pos ⟨List.cons_ne_nil p q, (List.cons_prefix_cons).mpr ⟨rfl, hpre⟩⟩]
    by_cases heq : q = rest.filter (fun s => s ≠ "")
    · conv_rhs => rw [if_pos heq]
      rw [if_pos (show p :: q = p :: rest.filter (fun s => s ≠ "") by rw [heq])]
    · conv_rhs => rw [if_neg heq]
      rw [if_neg (show ¬ p :: q = p :: rest.filter (fun s => s ≠ "") from fun hc => by
        injection hc with h1 h2
        exact heq h2)]
  · conv_rhs => rw [if_neg (fun hc => hpre hc.2)]
    rw [if_neg (fun hc => hpre ((List.cons_prefix_cons).mp hc.2).2)]

theorem lookupPath_single (t : RTree) (k : String) :
    lookupPath t [k] = lookupA t k := by
  cases h : lookupA t k <;> simp [lookupPath, h]

theorem attrsPath_nil_q (t : RTree) : attrsPath t [] = none := rfl

theorem attrsPath_single (t : RTree) (k : String) :
    attrsPath t [k] = (lookupA t k).bind nodeAttrs := by
  rw [attrsPath, lookupPath_single]

theorem lookupPath_cons_cons (t : RTree) (k q1 : String) (qs : List String) :
    lookupPath t (k :: q1 :: qs)
      = (match lookupA t k with
         | some (RVal.node _ _ c) => lookupPath c (q1 :: qs)
         | _ => none) := by
  cases h : lookupA t k with
  | none => simp [lookupPath, h]
  | some v => cases v <;> simp [lookupPath, h]

theorem attrsPath_empty_tree : ∀ q : List String, attrsPath ([] : RTree) q = none
  | [] => rfl
  | k :: rest => by
    cases rest <;> simp [attrsPath, lookupPath, lookupA]

theorem attrsPath_updateA_ne (t : RTree) (p k : String) (v : RVal)
    (hk : k ≠ p) (q : List String) :
    attrsPath (updateA t p v) (k :: q) = attrsPath t (k :: q) := by
  cases q with
  | nil => rw [attrsPath_single, attrsPath_single, lookupA_updateA_ne t k p v (fun h => hk h.symm)]
  | cons q1 qs =>
    rw [attrsPath, attrsPath, lookupPath_cons_cons, lookupPath_cons_cons,
      lookupA_updateA_ne t k p v (fun h => hk h.symm)]

theorem attrsPath_updateA_self (t : RTree) (p : String) (s : Int) (d : Bool)
    (c : RTree) :
    attrsPath (updateA t p (RVal.node s d c)) [p] = some (s, d) := by
  rw [attrsPath_single, lookupA_updateA_self]
  rfl

theorem attrsPath_updateA_deep (t : RTree) (p : String) (s : Int) (d : Bool)
    (c : RTree) (q1 : String) (qs : List String) :
    attrsPath (updateA t p (RVal.node s d c)) (p :: q1 :: qs)
      = attrsPath c (q1 :: qs) := by
  rw [attrsPath, lookupPath_cons_cons, lookupA_updateA_self]
  rfl

theorem attrsPath_deep_of_node (t : RTree) (p : String) (s : Int) (d : Bool)
    (c : RTree) (hlk : lookupA t p = some (RVal.node s d c)) (q1 : String)
    (qs : List String) :
    attrsPath t (p :: q1 :: qs) = attrsPath c (q1 :: qs) := by
  rw [attrsPath, lookupPath_cons_cons, hlk]
  rfl

theorem attrsPath_deep_of_none (t : RTree) (p : String)
    (hlk : lookupA t p = none) (q1 : String) (qs : List String) :
    attrsPath t (p :: q1 :: qs) = none := by
  rw [attrsPath, lookupPath_cons_cons, hlk]
  rfl

/-- Main characterization of one `insertParts` walk: on a bare-free tree
whose walked segment list ends in a nonempty segment (as every stripped
path does), the walk succeeds, preserves bare-freeness, and transforms
the attributes at every path according to `partsUpd`. -/
theorem insertParts_main :
    ∀ (ps : List String) (t : RTree) (d : Bool) (sz : Int),
      noBareL t = true → lastNE ps = true →
      ∃ t2, insertParts t ps d sz = some t2 ∧ noBareL t2 = true ∧
        ∀ q, attrsPath t2 q = partsUpd ps d sz q (attrsPath t q)
  | [], t, d, sz, hnb, _ =>
    ⟨t, rfl, hnb, fun q => by
      rw [partsUpd]
      rw [if_neg (fun hc => hc.1 (List.prefix_nil.mp (by simpa using hc.2)))]⟩
  | p :: rest, t, d, sz, hnb, hlast => by
    by_cases hp : p = ""
    · subst hp
      rcases rest with _ | ⟨s2, r⟩
      · rw [lastNE] at hlast
        simp at hlast
      · obtain ⟨t2, h1, h2, h3⟩ := insertParts_main (s2 :: r) t d sz hnb hlast
        refine ⟨t2, ?_, h2, fun q => ?_⟩
        · rw [insertParts, if_pos rfl]
          exact h1
        · rw [partsUpd_skip]
          exact h3 q
    · rcases rest with _ | ⟨s2, r⟩
      · -- leaf: ps = [p]
        have hlk := fun v => noBareV_of_lookupA t p v hnb
        rcases hlook : lookupA t p with _ | v
        · -- node absent: created as the default node
          refine ⟨updateA t p (if d then RVal.node 0 true []
              else RVal.node (0 + sz) false []), ?_, ?_, fun q => ?_⟩
          · simp only [insertParts, if_neg hp, hlook, Option.getD_none, List.isEmpty_nil]
            cases d <;> rfl
          · cases d
            · exact noBareL_updateA t p _ hnb rfl
            · exact noBareL_updateA t p _ hnb rfl
          · rcases q with _ | ⟨k, qrest⟩
            · rw [partsUpd_nil_q]
              rfl
            · by_cases hk : k = p
              · subst hk
                rcases qrest with _ | ⟨q1, qs⟩
                · rw [partsUpd_leaf_self k hp d sz]
                  rw [attrsPath_single t k, hlook]
                  cases d
                  · rw [show (if false = true then RVal.node 0 true []
                        else RVal.node (0 + sz) false []) = RVal.node (0 + sz) false [] from rfl]
                    rw [attrsPath_updateA_self]
                    rfl
                  · rw [show (if true = true then RVal.node 0 true []
                        else RVal.node (0 + sz) false []) = RVal.node 0 true [] from rfl]
                    rw [attrsPath_updateA_self]
                    rfl
                · have hrhs : partsUpd [k] d sz (k :: q1 :: qs) (attrsPath t (k :: q1 :: qs)) = attrsPath t (k :: q1 :: qs) := by
                    apply partsUpd_other
                    intro hc
                    rw [filter_cons_ne_empty k hp []] at hc
                    have := ((List.cons_prefix_cons).mp hc).2
                    simp at this
                  rw [hrhs]
                  rw [attrsPath_deep_of_none t k hlook]
                  cases d
                  · rw [show (if false = true then RVal.node 0 true []
                        else RVal.node (0 + sz) false []) = RVal.node (0 + sz) false [] from rfl]
                    rw [attrsPath_updateA_deep]
                    rw [attrsPath_empty_tree]
                  · rw [show (if true = true then RVal.node 0 true []
                        else RVal.node (0 + sz) false []) = RVal.node 0 true [] from rfl]
                    rw [attrsPath_updateA_deep]
                    rw [attrsPath_empty_tree]
              · rw [attrsPath_updateA_ne t p k _ hk]
                rw [partsUpd_other]
                intro hc
                rw [filter_cons_ne_empty p hp []] at hc
                exact hk ((List.cons_prefix_cons).mp hc).1
        · -- node present
          rcases hv : v with ⟨s0, d0, c0⟩ | n
          · refine ⟨updateA t p (if d then RVal.node s0 true c0
                else RVal.node (s0 + sz) d0 c0), ?_, ?_, fun q => ?_⟩
            · simp only [insertParts, if_neg hp, hlook, hv, Option.getD_some, List.isEmpty_nil]
              cases d <;> rfl
            · have hc0 : noBareL c0 = true := by
                have := hlk v hlook
                rw [hv] at this
                exact this
              cases d
              · exact noBareL_updateA t p _ hnb hc0
              · exact noBareL_updateA t p _ hnb hc0
            · rcases q with _ | ⟨k, qrest⟩
              · rw [partsUpd_nil_q]
                rfl
              · by_cases hk : k = p
                · subst hk
                  rcases qrest with _ | ⟨q1, qs⟩
                  · rw [partsUpd_leaf_self k hp d sz]
                    rw [attrsPath_single t k, hlook, hv]
                    cases d
                    · rw [show (if false = true then RVal.node s0 true c0
                          else RVal.node (s0 + sz) d0 c0) = RVal.node (s0 + sz) d0 c0 from rfl]
                      rw [attrsPath_updateA_self]
                      rfl
                    · rw [show (if true = true then RVal.node s0 true c0
                          else RVal.node (s0 + sz) d0 c0) = RVal.node s0 true c0 from rfl]
                      rw [attrsPath_updateA_self]
                      rfl
                  · have hrhs : partsUpd [k] d sz (k :: q1 :: qs) (attrsPath t (k :: q1 :: qs)) = attrsPath t (k :: q1 :: qs) := by
                      apply partsUpd_other
                      intro hc
                      rw [filter_cons_ne_empty k hp []] at hc
                      have := ((List.cons_prefix_cons).mp hc).2
                      simp at this
                    rw [hrhs]
                    rw [attrsPath_deep_of_node t k s0 d0 c0 (by rw [hlook, hv])]
                    cases d
                    · rw [show (if false = true then RVal.node s0 true c0
                          else RVal.node (s0 + sz) d0 c0) = RVal.node (s0 + sz) d0 c0 from rfl]
                      rw [attrsPath_updateA_deep]
                    · rw [show (if true = true then RVal.node s0 true c0
                          else RVal.node (s0 + sz) d0 c0) = RVal.node s0 true c0 from rfl]
                      rw [attrsPath_updateA_deep]
                · rw [attrsPath_updateA_ne t p k _ hk]
                  rw [partsUpd_other]
                  intro hc
                  rw [filter_cons_ne_empty p hp []] at hc
                  exact hk ((List.cons_prefix_cons).mp hc).1
          · exfalso
            have := hlk v hlook
            rw [hv] at this
            simp [noBareV] at this
      · -- intermediate: ps = p :: s2 :: r
        have hrestne : lastNE (s2 :: r) = true := hlast
        have hfilne : (s2 :: r).filter (fun s => s ≠ "") ≠ [] :=
          filter_ne_nil_of_lastNE (s2 :: r) (by simp) hrestne
        have hlk := fun v => noBareV_of_lookupA t p v hnb
        rcases hlook : lookupA t p with _ | v
        · obtain ⟨c2, hc1, hc2, hc3⟩ := insertParts_main (s2 :: r) [] d sz rfl hrestne
          refine ⟨updateA t p (RVal.node (0 + sz) false c2), ?_, ?_, fun q => ?_⟩
          · rw [insertParts, if_neg hp, hlook]
            simp only [Option.getD_none, List.isEmpty_cons]
            rw [hc1]
            rfl
          · exact noBareL_updateA t p _ hnb hc2
          · rcases q with _ | ⟨k, qrest⟩
            · rw [partsUpd_nil_q]
              rfl
            · by_cases hk : k = p
              · subst hk
                rcases qrest with _ | ⟨q1, qs⟩
                · rw [partsUpd_inter_self k hp (s2 :: r) hfilne d sz]
                  rw [attrsPath_single t k, hlook]
                  rw [attrsPath_updateA_self]
                  rfl
                · rw [partsUpd_inter_deep k hp (s2 :: r) d sz (q1 :: qs) (by simp)]
                  rw [attrsPath_updateA_deep]
                  rw [attrsPath_deep_of_none t k hlook]
                  rw [hc3 (q1 :: qs)]
                  rw [attrsPath_empty_tree]
              · rw [attrsPath_updateA_ne t p k _ hk]
                rw [partsUpd_other]
                intro hc
                rw [filter_cons_ne_empty p hp (s2 :: r)] at hc
                exact hk ((List.cons_prefix_cons).mp hc).1
        · rcases hv : v with ⟨s0, d0, c0⟩ | n
          · have hc0 : noBareL c0 = true := by
              have := hlk v hlook
              rw [hv] at this
              exact this
            obtain ⟨c2, hc1, hc2, hc3⟩ := insertParts_main (s2 :: r) c0 d sz hc0 hrestne
            refine ⟨updateA t p (RVal.node (s0 + sz) d0 c2), ?_, ?_, fun q => ?_⟩
            · rw [insertParts, if_neg hp, hlook]
              simp only [Option.getD_some, List.isEmpty_cons, hv]
              rw [hc1]
              rfl
            · exact noBareL_updateA t p _ hnb hc2
            · rcases q with _ | ⟨k, qrest⟩
              · rw [partsUpd_nil_q]
                rfl
              · by_cases hk : k = p
                · subst hk
                  rcases qrest with _ | ⟨q1, qs⟩
                  · rw [partsUpd_inter_self k hp (s2 :: r) hfilne d sz]
                    rw [attrsPath_single t k, hlook, hv]
                    rw [attrsPath_updateA_self]
                    rfl
                  · rw [partsUpd_inter_deep k hp (s2 :: r) d sz (q1 :: qs) (by simp)]
                    rw [attrsPath_updateA_deep]
                    rw [attrsPath_deep_of_node t k s0 d0 c0 (by rw [hlook, hv])]
                    rw [hc3 (q1 :: qs)]
                · rw [attrsPath_updateA_ne t p k _ hk]
                  rw [partsUpd_other]
                  intro hc
                  rw [filter_cons_ne_empty p hp (s2 :: r)] at hc
                  exact hk ((List.cons_prefix_cons).mp hc).1
          · exfalso
            have := hlk v hlook
            rw [hv] at this
            simp [noBareV] at this

/-- Declarative description of one entry's effect on the attributes at
path `q`: every nonempty prefix of the entry's nonempty-segment chain
gains the entry's size (0 for a directory), and the flag is set when a
directory entry's full chain equals `q`. -/
def entryUpd (e : Entry) (q : List String) (a : Option (Int × Bool)) :
    Option (Int × Bool) :=
  if q ≠ [] ∧ q <+: fparts e then
    let p0 := a.getD (0, false)
    some (p0.1 + (if e.IsDir then 0 else e.Size),
      p0.2 || (e.IsDir && (fparts e == q)))
  else a

theorem entryUpd_eq_partsUpd (e : Entry) (q : List String)
    (a : Option (Int × Bool)) :
    entryUpd e q a
      = partsUpd (pathParts e.Path) e.IsDir (if e.IsDir then 0 else e.Size) q a := by
  rw [entryUpd, partsUpd]
  have hfe : fparts e = (pathParts e.Path).filter (fun s => s ≠ "") := rfl
  by_cases hc : q ≠ [] ∧ q <+: (pathParts e.Path).filter (fun s => s ≠ "")
  · rw [if_pos (by rw [hfe]; exact hc), if_pos hc]
    by_cases heq : q = (pathParts e.Path).filter (fun s => s ≠ "")
    · rw [if_pos heq]
      cases hd : e.IsDir
      · rw [if_neg (by simp)]
        have : (fparts e == q) = true := by
          rw [hfe, ← heq]
          exact beq_self_eq_true q
        simp [this]
      · rw [if_pos rfl]
        have : (fparts e == q) = true := by
          rw [hfe, ← heq]
          exact beq_self_eq_true q
        simp [this]
    · rw [if_neg heq]
      have : (fparts e == q) = false := by
        rw [hfe]
        exact beq_false_of_ne (fun hcon => heq hcon.symm)
      cases hd : e.IsDir <;> simp [this]
  · rw [if_neg (by rw [hfe]; exact hc), if_neg hc]

theorem insertEntry_main (t : RTree) (e : Entry) (hnb : noBareL t = true) :
    ∃ t2, insertEntry t e = some t2 ∧ noBareL t2 = true ∧
      ∀ q, attrsPath t2 q = entryUpd e q (attrsPath t q) := by
  obtain ⟨t2, h1, h2, h3⟩ :=
    insertParts_main (pathParts e.Path) t e.IsDir (if e.IsDir then 0 else e.Size)
      hnb (pathParts_lastNE e.Path)
  refine ⟨t2, h1, h2, fun q => ?_⟩
  rw [h3 q, entryUpd_eq_partsUpd]

/-- The composite effect of a whole entry list on the attributes at a
path. -/
def listUpd (l : List Entry) (q : List String) (a : Option (Int × Bool)) :
    Option (Int × Bool) :=
  l.foldl (fun a e => entryUpd e q a) a

theorem buildRawAux_main :
    ∀ (l : List Entry) (t : RTree), noBareL t = true →
      ∃ t2, buildRawAux t l = some t2 ∧ noBareL t2 = true ∧
        ∀ q, attrsPath t2 q = listUpd l q (attrsPath t q)
  | [], t, hnb => ⟨t, rfl, hnb, fun q => rfl⟩
  | e :: rest, t, hnb => by
    obtain ⟨t1, h1, h2, h3⟩ := insertEntry_main t e hnb
    obtain ⟨t2, g1, g2, g3⟩ := buildRawAux_main rest t1 h2
    refine ⟨t2, ?_, g2, fun q => ?_⟩
    · rw [buildRawAux, h1]
      exact g1
    · rw [g3 q, h3 q]
      rfl

theorem buildRaw_main (l : List Entry) :
    ∃ t, buildRaw l = some t ∧ noBareL t = true ∧
      ∀ q, attrsPath t q = listUpd l q none := by
  obtain ⟨t, h1, h2, h3⟩ := buildRawAux_main l [] rfl
  refine ⟨t, h1, h2, fun q => ?_⟩
  rw [h3 q, attrsPath_empty_tree]

/-- Total size contributed at path `q`: the sum of the sizes of the file
entries whose nonempty-segment chain has `q` as a prefix (including the
chain itself). -/
def szSum (l : List Entry) (q : List String) : Int :=
  ((l.filter (fun e => !e.IsDir && decide (q <+: fparts e))).map
    (fun e => e.Size)).sum

/-- Whether some directory entry's nonempty-segment chain is exactly
`q`. -/
def dFlag (l : List Entry) (q : List String) : Bool :=
  l.any (fun e => e.IsDir && (fparts e == q))

/-- Whether some entry's walk touches the node at path `q`. -/
def touches (l : List Entry) (q : List String) : Bool :=
  l.any (fun e => decide (q <+: fparts e))

theorem listUpd_closed :
    ∀ (l : List Entry) (q : List String) (a : Option (Int × Bool)), q ≠ [] →
      listUpd l q a
        = (if touches l q then
            some ((a.getD (0, false)).1 + szSum l q,
              (a.getD (0, false)).2 || dFlag l q)
          else a)
  | [], q, a, _ => by
    rw [if_neg (by simp [touches])]
    rfl
  | e :: rest, q, a, hq => by
    have hstep : listUpd (e :: rest) q a = listUpd rest q (entryUpd e q a) := rfl
    rw [hstep]
    rw [listUpd_closed rest q (entryUpd e q a) hq]
    by_cases hpre : q <+: fparts e
    · have hupd : entryUpd e q a
          = some ((a.getD (0, false)).1 + (if e.IsDir then 0 else e.Size),
            (a.getD (0, false)).2 || (e.IsDir && (fparts e == q))) := by
        rw [entryUpd, if_pos ⟨hq, hpre⟩]
      have htouch : touches (e :: rest) q = true := by
        simp [touches, List.any_cons, hpre]
      rw [htouch, if_pos rfl]
      have hsz : szSum (e :: rest) q
          = (if e.IsDir then 0 else e.Size) + szSum rest q := by
        rw [szSum, szSum, List.filter_cons]
        cases hd : e.IsDir
        · rw [if_pos (by simp [hd, hpre])]
          simp
        · rw [if_neg (by simp [hd])]
          simp
      have hfl : dFlag (e :: rest) q
          = ((e.IsDir && (fparts e == q)) || dFlag rest q) := by
        rw [dFlag, dFlag, List.any_cons]
      rw [hsz, hfl]
      by_cases hrest : touches rest q
      · rw [if_pos hrest, hupd]
        simp only [Option.getD_some]
        rw [Int.add_assoc]
        rw [Bool.or_assoc]
      · rw [if_neg hrest, hupd]
        have hfil : rest.filter (fun e => !e.IsDir && decide (q <+: fparts e)) = [] := by
          rw [List.filter_eq_nil_iff]
          intro x hx hcon
          simp only [Bool.and_eq_true, decide_eq_true_eq] at hcon
          have : touches rest q = true := by
            simp only [touches, List.any_eq_true]
            exact ⟨x, hx, by simpa using hcon.2⟩
          exact hrest this
        have hflr : dFlag rest q = false := by
          rw [dFlag]
          by_contra hcon
          rw [Bool.not_eq_false, List.any_eq_true] at hcon
          obtain ⟨x, hx, hxx⟩ := hcon
          simp only [Bool.and_eq_true, beq_iff_eq] at hxx
          apply hrest
          simp only [touches, List.any_eq_true]
          exact ⟨x, hx, by simp [hxx.2]⟩
        rw [show szSum rest q = 0 from by rw [szSum, hfil]; rfl, hflr]
        simp
    · have hupd : entryUpd e q a = a := by
        rw [entryUpd, if_neg (fun hcon => hpre hcon.2)]
      have htouch : touches (e :: rest) q = touches rest q := by
        simp [touches, List.any_cons, hpre]
      have hsz : szSum (e :: rest) q = szSum rest q := by
        rw [szSum, szSum, List.filter_cons]
        rw [if_neg (by simp [hpre])]
      have hfl : dFlag (e :: rest) q = dFlag rest q := by
        rw [dFlag, dFlag, List.any_cons]
        have : (e.IsDir && (fparts e == q)) = false := by
          cases hd : e.IsDir
          · rfl
          · simp only [Bool.true_and]
            apply beq_false_of_ne
            intro hcon
            exact hpre (by rw [← hcon])
        rw [this, Bool.false_or]
      rw [hupd, htouch, hsz, hfl]

/-- Extensional characterization of the raw build: it always succeeds,
contains no bare value, and the node at any nonempty path `q` exists
iff some entry's chain extends `q`, carrying size `szSum` and flag
`dFlag`. -/
theorem buildRaw_closed (l : List Entry) :
    ∃ t, buildRaw l = some t ∧ noBareL t = true ∧
      ∀ q, q ≠ [] →
        attrsPath t q
          = (if touches l q then some (szSum l q, dFlag l q) else none) := by
  obtain ⟨t, h1, h2, h3⟩ := buildRaw_main l
  refine ⟨t, h1, h2, fun q hq => ?_⟩
  rw [h3 q, listUpd_closed l q none hq]
  by_cases ht : touches l q
  · rw [if_pos ht, if_pos ht]
    simp
  · rw [if_neg ht, if_neg ht]

/-! ### Transport along `clean_node` -/

theorem lookupA_cleanL (t : RTree) (k : String) :
    lookupA (cleanL t) k = (lookupA t k).map cleanV := by
  induction t with
  | nil => rfl
  | cons kv rest ih =>
    obtain ⟨k1, v1⟩ := kv
    by_cases h : k1 = k
    · simp [cleanL, lookupA, h]
    · simp [cleanL, lookupA, h, ih]

theorem cLookupPath_cleanL :
    ∀ (q : List String) (t : RTree),
      cLookupPath (cleanL t) q = (lookupPath t q).map cleanV
  | [], t => rfl
  | k :: rest, t => by
    rw [cLookupPath, lookupPath, lookupA_cleanL]
    cases hlk : lookupA t k with
    | none => rfl
    | some v =>
      cases rest with
      | nil => rfl
      | cons q1 qs =>
        cases v with
        | node s d c =>
          exact cLookupPath_cleanL (q1 :: qs) c
        | bare n => rfl

theorem cNodeAttrs_cleanV (v : RVal) : cNodeAttrs (cleanV v) = nodeAttrs v := by
  cases v <;> rfl

theorem cAttrsPath_cleanL (t : RTree) (q : List String) :
    cAttrsPath (cleanL t) q = attrsPath t q := by
  rw [cAttrsPath, attrsPath, cLookupPath_cleanL]
  cases h : lookupPath t q with
  | none => rfl
  | some v => simp [cNodeAttrs_cleanV]

/-- Characterization of `build_tree_structure` itself. -/
theorem build_closed (l : List Entry) :
    ∃ T, build_tree_structure l = some T ∧
      ∀ q, q ≠ [] →
        cAttrsPath T q
          = (if touches l q then some (szSum l q, dFlag l q) else none) := by
  obtain ⟨t, h1, _h2, h3⟩ := buildRaw_closed l
  refine ⟨cleanL t, ?_, fun q hq => ?_⟩
  · rw [build_tree_structure, h1]
    rfl
  · rw [cAttrsPath_cleanL]
    exact h3 q hq

/-! ### Claim C9: children values are always full node dicts -/

/-- C9.  For every input entry list the construction loop succeeds (the
leaf updates of lines 83-86, which would raise a `TypeError` on a
non-dict value, never fail) and the resulting raw tree contains no bare
(non-dict) value in any children mapping.  Since this holds for every
entry list it holds for every prefix of a run's input, i.e. at every
intermediate state of construction, so the fallback branch of lines
88-94 — taken only when a looked-up value is not a node dict — is
unreachable. -/
theorem claim_C9_no_bare_values (entries : List Entry) :
    ∃ t, buildRaw entries = some t ∧ noBareL t = true := by
  obtain ⟨t, h1, h2, _⟩ := buildRaw_closed entries
  exact ⟨t, h1, h2⟩

/-! ### Claim C1: order invariance of the tree builder -/

theorem any_perm {α : Type} (p : α → Bool) {l1 l2 : List α} (h : l1.Perm l2) :
    l1.any p = l2.any p := by
  by_cases h1 : l1.any p = true
  · have h2 : l2.any p = true := by
      rw [List.any_eq_true] at h1 ⊢
      obtain ⟨x, hx, hpx⟩ := h1
      exact ⟨x, h.mem_iff.mp hx, hpx⟩
    rw [h1, h2]
  · have h1f : l1.any p = false := by simpa using h1
    have h2 : l2.any p = false := by
      rw [List.any_eq_false] at h1f ⊢
      intro x hx
      exact h1f x (h.mem_iff.mpr hx)
    rw [h1f, h2]

theorem touches_perm {l1 l2 : List Entry} (h : l1.Perm l2) (q : List String) :
    touches l1 q = touches l2 q :=
  any_perm _ h

theorem dFlag_perm {l1 l2 : List Entry} (h : l1.Perm l2) (q : List String) :
    dFlag l1 q = dFlag l2 q :=
  any_perm _ h

theorem szSum_perm {l1 l2 : List Entry} (h : l1.Perm l2) (q : List String) :
    szSum l1 q = szSum l2 q :=
  List.Perm.sum_eq ((h.filter _).map _)

theorem lookupPath_noBare :
    ∀ (q : List String) (t : RTree) (v : RVal), noBareL t = true →
      lookupPath t q = some v → noBareV v = true
  | [], t, v, _, hl => by simp [lookupPath] at hl
  | k :: rest, t, v, hnb, hl => by
    rw [lookupPath] at hl
    cases hlk : lookupA t k with
    | none => rw [hlk] at hl; simp at hl
    | some w =>
      rw [hlk] at hl
      cases rest with
      | nil =>
        simp only [Option.some.injEq] at hl
        rw [← hl]
        exact noBareV_of_lookupA t k w hnb hlk
      | cons q1 qs =>
        have hw := noBareV_of_lookupA t k w hnb hlk
        cases w with
        | node s d c =>
          exact lookupPath_noBare (q1 :: qs) c v hw hl
        | bare n => simp at hl

theorem attrsPath_isSome_eq (t : RTree) (q : List String)
    (hnb : noBareL t = true) :
    (attrsPath t q).isSome = (lookupPath t q).isSome := by
  rw [attrsPath]
  cases hl : lookupPath t q with
  | none => rfl
  | some v =>
    have := lookupPath_noBare q t v hnb hl
    cases v with
    | node s d c => rfl
    | bare n => simp [noBareV] at this

theorem cLookupPath_isSome (t : RTree) (q : List String) :
    (cLookupPath (cleanL t) q).isSome = (lookupPath t q).isSome := by
  rw [cLookupPath_cleanL]
  cases hl : lookupPath t q <;> rfl

/-- C1.  Building the tree from any permutation of an entry list yields
an identical final tree: both builds succeed, and at every path the two
trees have the same nodes (same domain of existing paths), the same
sizes and the same isDirectory flags. -/
theorem claim_C1_order_invariance (l1 l2 : List Entry) (hperm : l1.Perm l2) :
    ∃ T1 T2, build_tree_structure l1 = some T1 ∧
      build_tree_structure l2 = some T2 ∧
      (∀ q, cAttrsPath T1 q = cAttrsPath T2 q) ∧
      (∀ q, (cLookupPath T1 q).isSome = (cLookupPath T2 q).isSome) := by
  obtain ⟨t1, h1, hb1, h3⟩ := buildRaw_closed l1
  obtain ⟨t2, g1, hb2, g3⟩ := buildRaw_closed l2
  have hattrs : ∀ q, attrsPath t1 q = attrsPath t2 q := by
    intro q
    rcases q with _ | ⟨k, qrest⟩
    · rfl
    · rw [h3 (k :: qrest) (by simp), g3 (k :: qrest) (by simp)]
      rw [touches_perm hperm, szSum_perm hperm, dFlag_perm hperm]
  refine ⟨cleanL t1, cleanL t2, ?_, ?_, fun q => ?_, fun q => ?_⟩
  · rw [build_tree_structure, h1]
    rfl
  · rw [build_tree_structure, g1]
    rfl
  · rw [cAttrsPath_cleanL, cAttrsPath_cleanL]
    exact hattrs q
  · rw [cLookupPath_isSome, cLookupPath_isSome]
    rw [← attrsPath_isSome_eq t1 q hb1, ← attrsPath_isSome_eq t2 q hb2]
    rw [hattrs q]

/-- Witness for C1 at a concrete permutation pair. -/
theorem claim_C1_order_invariance_witness :
    ∃ T1 T2, build_tree_structure [⟨"a/b", false, 5⟩, ⟨"a", true, 0⟩] = some T1 ∧
      build_tree_structure [⟨"a", true, 0⟩, ⟨"a/b", false, 5⟩] = some T2 ∧
      (∀ q, cAttrsPath T1 q = cAttrsPath T2 q) ∧
      (∀ q, (cLookupPath T1 q).isSome = (cLookupPath T2 q).isSome) :=
  claim_C1_order_invariance _ _ (by decide)

/-! ### Claim C2: directory sizes versus descendant file sizes -/

/-- Size attribute of a cleaned value (`_size`, with a bare value being
its own size). -/
def sizeC : CVal → Int
  | CVal.cnode s _ _ => s
  | CVal.cbare n => n

/-- Modelled from the claim's words: the size contributed by one
"file-type" child node (a node whose `_isdir` flag is false). -/
def fileContrib : CVal → Int
  | CVal.cnode s false _ => s
  | CVal.cnode _ true _ => 0
  | CVal.cbare n => n

mutual

/-- Modelled from the claim's words: the sum of the sizes of all
file-type descendant nodes strictly beneath a value. -/
def fileDescSumV : CVal → Int
  | CVal.cnode _ _ cs => fileDescSumL cs
  | CVal.cbare _ => 0

/-- `fileDescSumV` over a children mapping, counting the children
themselves. -/
def fileDescSumL : List (String × CVal) → Int
  | [] => 0
  | (_, v) :: rest => fileContrib v + (fileDescSumV v + fileDescSumL rest)

end

/-- Modelled from the claim's words: the sum of the direct children's
sizes. -/
def childSum (cs : List (String × CVal)) : Int :=
  (cs.map (fun kv => sizeC kv.2)).sum

/-- Counterexample to C2 as stated.  On the entries
`[dir "a", file "a" (size 7), file "a/b" (size 3)]` the builder yields a
directory node `a` (isDirectory true) of size 10, whose only file-type
descendant is `b` of size 3 and whose children sum to 3: the directory's
size equals neither the sum of its file-type descendants' sizes nor the
sum of its children's sizes, because the file entry at the directory's
own path adds its size to the node itself. -/
theorem claim_C2_counterexample :
    build_tree_structure [⟨"a", true, 0⟩, ⟨"a", false, 7⟩, ⟨"a/b", false, 3⟩]
      = some [("a", CVal.cnode 10 true [("b", CVal.cnode 3 false [])])]
    ∧ cAttrsPath [("a", CVal.cnode 10 true [("b", CVal.cnode 3 false [])])] ["a"]
      = some (10, true)
    ∧ fileDescSumV (CVal.cnode 10 true [("b", CVal.cnode 3 false [])]) = 3
    ∧ childSum [("b", CVal.cnode 3 false [])] = 3
    ∧ (10 : Int) ≠ 3 :=
  ⟨rfl, rfl, rfl, rfl, by decide⟩

/-- C2 (amended).  In every tree produced by the tree builder, each
node's size — in particular each directory node's — equals the sum of
the sizes of the file entries whose nonempty-segment chain extends the
node's path (the file entries at or beneath the node, each counted
once).  The original phrasings (sum over file-type descendant nodes;
sum of the children's sizes) fail when a file entry sits at a directory
node's own path or when file nodes have descendants. -/
theorem claim_C2_amended_node_size (l : List Entry) :
    ∃ T, build_tree_structure l = some T ∧
      ∀ q s d c, cLookupPath T q = some (CVal.cnode s d c) → s = szSum l q := by
  obtain ⟨T, h1, h2⟩ := build_closed l
  refine ⟨T, h1, fun q s d c hlk => ?_⟩
  have hq : q ≠ [] := by
    intro hcon
    rw [hcon] at hlk
    simp [cLookupPath] at hlk
  have := h2 q hq
  rw [cAttrsPath, hlk] at this
  by_cases ht : touches l q
  · rw [if_pos ht] at this
    have : (some (s, d) : Option (Int × Bool)) = some (szSum l q, dFlag l q) := this
    injection this with hpair
    exact congrArg Prod.fst hpair
  · rw [if_neg ht] at this
    exact absurd this (by simp [cNodeAttrs])

/-- Witness for the amended C2 at a concrete input. -/
theorem claim_C2_amended_node_size_witness :
    (5 : Int) = szSum [⟨"a/b", false, 5⟩] ["a"] := by
  obtain ⟨T, h1, h2⟩ := claim_C2_amended_node_size [⟨"a/b", false, 5⟩]
  have h3 : build_tree_structure [⟨"a/b", false, 5⟩]
      = some [("a", CVal.cnode 5 false [("b", CVal.cnode 5 false [])])] := rfl
  rw [h1] at h3
  have hT := Option.some.inj h3
  exact h2 ["a"] 5 false [("b", CVal.cnode 5 false [])] (by rw [hT]; rfl)

/-! ### Claim C3: directory wins over file for the same path -/

/-- C3.  When the same path appears both as a directory entry and as a
file entry, in either order, the resulting node has its directory flag
set (the file leaf update never clears `_isdir`, it only adds size) and
carries the file entry's size. -/
theorem claim_C3_dir_wins (p : String) (s1 s2 : Int)
    (hne : fparts ⟨p, true, s1⟩ ≠ []) :
    ∃ T1 T2,
      build_tree_structure [⟨p, true, s1⟩, ⟨p, false, s2⟩] = some T1 ∧
      build_tree_structure [⟨p, false, s2⟩, ⟨p, true, s1⟩] = some T2 ∧
      cAttrsPath T1 (fparts ⟨p, true, s1⟩) = some (s2, true) ∧
      cAttrsPath T2 (fparts ⟨p, true, s1⟩) = some (s2, true) := by
  obtain ⟨T1, h1, h2⟩ := build_closed [⟨p, true, s1⟩, ⟨p, false, s2⟩]
  obtain ⟨T2, g1, g2⟩ := build_closed [⟨p, false, s2⟩, ⟨p, true, s1⟩]
  have hqeq : fparts (⟨p, false, s2⟩ : Entry) = fparts ⟨p, true, s1⟩ := rfl
  have hpre : fparts (⟨p, true, s1⟩ : Entry) <+: fparts ⟨p, true, s1⟩ :=
    List.prefix_refl _
  have ht1 : touches [⟨p, true, s1⟩, ⟨p, false, s2⟩] (fparts ⟨p, true, s1⟩) = true := by
    simp [touches, List.any_cons, hpre]
  have ht2 : touches [⟨p, false, s2⟩, ⟨p, true, s1⟩] (fparts ⟨p, true, s1⟩) = true := by
    simp [touches, List.any_cons, hqeq, hpre]
  have hsz1 : szSum [⟨p, true, s1⟩, ⟨p, false, s2⟩] (fparts ⟨p, true, s1⟩) = s2 := by
    simp [szSum, List.filter_cons, hqeq, hpre]
  have hsz2 : szSum [⟨p, false, s2⟩, ⟨p, true, s1⟩] (fparts ⟨p, true, s1⟩) = s2 := by
    simp [szSum, List.filter_cons, hqeq, hpre]
  have hfl1 : dFlag [⟨p, true, s1⟩, ⟨p, false, s2⟩] (fparts ⟨p, true, s1⟩) = true := by
    simp [dFlag, List.any_cons]
  have hfl2 : dFlag [⟨p, false, s2⟩, ⟨p, true, s1⟩] (fparts ⟨p, true, s1⟩) = true := by
    simp [dFlag, List.any_cons]
  refine ⟨T1, T2, h1, g1, ?_, ?_⟩
  · rw [h2 _ hne, ht1, if_pos rfl, hsz1, hfl1]
  · rw [g2 _ hne, ht2, if_pos rfl, hsz2, hfl2]

/-- Witness for C3 at a concrete path and sizes. -/
theorem claim_C3_dir_wins_witness :
    ∃ T1 T2,
      build_tree_structure [⟨"a", true, 0⟩, ⟨"a", false, 5⟩] = some T1 ∧
      build_tree_structure [⟨"a", false, 5⟩, ⟨"a", true, 0⟩] = some T2 ∧
      cAttrsPath T1 (fparts ⟨"a", true, 0⟩) = some (5, true) ∧
      cAttrsPath T2 (fparts ⟨"a", true, 0⟩) = some (5, true) :=
  claim_C3_dir_wins "a" 0 5 (by decide)

/-! ### The tree renderer (`extract_number`, `generate_tree_html`,
lines 112-153) -/

/-- `extract_number(name)` (lines 112-115): the integer value of the
name's leading digits, or `none` for Python's `float('inf')` when the
name has no leading digit.  (`re.match(r'^(\d+)', …)` with ASCII
digits.) -/
def extract_number (name : String) : Option Nat :=
  let digits := name.data.takeWhile (fun c => c.isDigit)
  if digits.isEmpty then none
  else some (digits.foldl (fun n c => n * 10 + (c.toNat - 48)) 0)

/-- Order on numeric sort keys, with `none` (`float('inf')`) greatest. -/
def numLe (a b : Option Nat) : Bool :=
  match a, b with
  | some x, some y => decide (x ≤ y)
  | some _, none => true
  | none, some _ => false
  | none, none => true

/-- The line-137 comparison: sort children by the numeric key extracted
from the leading digits of the name. -/
def dirLeTop (x y : String × CVal) : Bool :=
  numLe (extract_number x.1) (extract_number y.1)

/-- The lines-139/142 comparison: sort children case-insensitively by
name (`key=lambda x: x[0].lower()`). -/
def ciLe (x y : String × CVal) : Bool :=
  decide (py_lower x.1 ≤ py_lower y.1)

/-- Classification of a child value (lines 127-133): a dict carrying
`_isdir` is a directory iff the flag is set; any other value is treated
as a file. -/
def isDirV : CVal → Bool
  | CVal.cnode _ d _ => d
  | CVal.cbare _ => false

/-- The children dict a directory item recurses into (the `value`
passed at line 146; for a non-dict value there is nothing to recurse
into). -/
def childrenC : CVal → CTree
  | CVal.cnode _ _ cs => cs
  | CVal.cbare _ => []

/-- The items of the loop at lines 123-125: every child of the node
dict except the `_size` and `_isdir` attributes. -/
def renderChildren (node : CTree) : List (String × CVal) :=
  node.filter (fun kv => !(kv.1 == "_size" || kv.1 == "_isdir"))

/-- The `dirs` partition of lines 127-131. -/
def renderDirs (node : CTree) : List (String × CVal) :=
  (renderChildren node).filter (fun kv => isDirV kv.2)

/-- The `files` partition of lines 131-133. -/
def renderFiles (node : CTree) : List (String × CVal) :=
  (renderChildren node).filter (fun kv => !isDirV kv.2)

/-- The sorted `dirs` list (lines 136-139): numeric keys at depth 1,
case-insensitive names deeper.  Python's stable `list.sort` is modelled
by the stable `List.mergeSort`. -/
def sortedDirs (node : CTree) (current_depth : Nat) : List (String × CVal) :=
  if current_depth = 1 then (renderDirs node).mergeSort dirLeTop
  else (renderDirs node).mergeSort ciLe

/-- The sorted `files` list (line 142). -/
def sortedFiles (node : CTree) : List (String × CVal) :=
  (renderFiles node).mergeSort ciLe

theorem sizeOf_cnode_children (s : Int) (d : Bool) (cs : CTree) :
    sizeOf cs < sizeOf (CVal.cnode s d cs) := by
  simp

/-- `generate_tree_html(node, current_depth)` (lines 117-153): emit the
sorted directory items, each recursing into its children at the next
depth, then the sorted file items, inside one `<ul>`. -/
def generate_tree_html (node : CTree) (current_depth : Nat) : String :=
  "<ul>"
    ++ String.join ((sortedDirs node current_depth).attach.map (fun x =>
        "<li><span class=\"folder\">" ++ x.1.1 ++ "</span>"
          ++ generate_tree_html (childrenC x.1.2) (current_depth + 1) ++ "</li>"))
    ++ String.join ((sortedFiles node).map (fun kv =>
        "<li><span class=\"file\">" ++ kv.1 ++ "</span></li>"))
    ++ "</ul>"
termination_by sizeOf node
decreasing_by
  have hx := x.2
  have hx2 : x.1 ∈ (if current_depth = 1 then (renderDirs node).mergeSort dirLeTop
      else (renderDirs node).mergeSort ciLe) := hx
  have hmem2 : x.1 ∈ renderDirs node := by
    by_cases h : current_depth = 1
    · rw [if_pos h] at hx2
      exact List.mem_mergeSort.mp hx2
    · rw [if_neg h] at hx2
      exact List.mem_mergeSort.mp hx2
  have hmem3 : x.1 ∈ node :=
    List.mem_of_mem_filter (List.mem_of_mem_filter hmem2)
  have h4 : sizeOf x.1 < sizeOf node := List.sizeOf_lt_of_mem hmem3
  have hdir : isDirV x.1.2 = true := by
    have := (List.mem_filter.mp hmem2).2
    simpa using this
  have h6 : sizeOf x.1.2 ≤ sizeOf x.1 := by
    obtain ⟨a, b⟩ := x.1
    simp
  rcases hv : x.1.2 with ⟨s, d, cs⟩ | n
  · have h7 : sizeOf (CVal.cnode s d cs) ≤ sizeOf x.1 := by
      rw [← hv]
      exact h6
    have h5 := sizeOf_cnode_children s d cs
    simp only [childrenC]
    omega
  · rw [hv] at hdir
    simp [isDirV] at hdir

theorem numLe_trans (a b c : Option Nat) (h1 : numLe a b = true)
    (h2 : numLe b c = true) : numLe a c = true := by
  cases a <;> cases b <;> cases c <;> simp [numLe] at * <;> omega

theorem numLe_total (a b : Option Nat) : (numLe a b || numLe b a) = true := by
  cases a <;> cases b <;> simp [numLe] <;> omega

theorem dirLeTop_trans (x y z : String × CVal) (h1 : dirLeTop x y)
    (h2 : dirLeTop y z) : dirLeTop x z :=
  numLe_trans _ _ _ h1 h2

theorem dirLeTop_total (x y : String × CVal) : dirLeTop x y || dirLeTop y x :=
  numLe_total _ _

theorem ciLe_trans (x y z : String × CVal) (h1 : ciLe x y) (h2 : ciLe y z) :
    ciLe x z := by
  simp only [ciLe, decide_eq_true_eq] at h1 h2 ⊢
  exact le_trans h1 h2

theorem ciLe_total (x y : String × CVal) : ciLe x y || ciLe y x := by
  simp only [ciLe, Bool.or_eq_true, decide_eq_true_eq]
  exact le_total _ _

/-- The spec's renderer scenario: three top-level directories named
"10x", "2y" and "abc". -/
def c6Example : CTree :=
  [("10x", CVal.cnode 0 true []), ("2y", CVal.cnode 0 true []),
   ("abc", CVal.cnode 0 true [])]

/-- C6.  The renderer emits all directory children before all file
children at every node (first conjunct: the emitted markup is the
directory items followed by the file items).  At depth 1 the directory
items are a permutation of the directory children sorted ascending by
the numeric key of the name's leading digits, names without leading
digits (`none`, Python's infinity) last; at depth > 1 directories sort
case-insensitively; files sort case-insensitively at every depth; and
top-level directories "10x", "2y", "abc" render in the order
"2y", "10x", "abc". -/
theorem claim_C6_render_order :
    (∀ (node : CTree) (d : Nat),
      generate_tree_html node d
        = "<ul>"
          ++ String.join ((sortedDirs node d).attach.map (fun x =>
              "<li><span class=\"folder\">" ++ x.1.1 ++ "</span>"
                ++ generate_tree_html (childrenC x.1.2) (d + 1) ++ "</li>"))
          ++ String.join ((sortedFiles node).map (fun kv =>
              "<li><span class=\"file\">" ++ kv.1 ++ "</span></li>"))
          ++ "</ul>")
    ∧ (∀ node : CTree,
        (sortedDirs node 1).Pairwise (fun x y => dirLeTop x y = true)
        ∧ (sortedDirs node 1).Perm (renderDirs node))
    ∧ (∀ (node : CTree) (d : Nat), d ≠ 1 →
        (sortedDirs node d).Pairwise (fun x y => ciLe x y = true)
        ∧ (sortedDirs node d).Perm (renderDirs node))
    ∧ (∀ node : CTree,
        (sortedFiles node).Pairwise (fun x y => ciLe x y = true)
        ∧ (sortedFiles node).Perm (renderFiles node))
    ∧ (sortedDirs c6Example 1).map (fun kv => kv.1) = ["2y", "10x", "abc"] := by
  refine ⟨fun node d => ?_, fun node => ⟨?_, ?_⟩, fun node d hd => ⟨?_, ?_⟩,
    fun node => ⟨?_, ?_⟩, ?_⟩
  · rw [generate_tree_html]
  · rw [sortedDirs, if_pos rfl]
    exact List.sorted_mergeSort dirLeTop_trans dirLeTop_total _
  · rw [sortedDirs, if_pos rfl]
    exact List.mergeSort_perm _ _
  · rw [sortedDirs, if_neg hd]
    exact List.sorted_mergeSort ciLe_trans ciLe_total _
  · rw [sortedDirs, if_neg hd]
    exact List.mergeSort_perm _ _
  · rw [sortedFiles]
    exact List.sorted_mergeSort ciLe_trans ciLe_total _
  · rw [sortedFiles]
    exact List.mergeSort_perm _ _
  · have e1 : dirLeTop ("10x", CVal.cnode 0 true []) ("2y", CVal.cnode 0 true [])
        = false := by decide
    have e2 : dirLeTop ("2y", CVal.cnode 0 true []) ("10x", CVal.cnode 0 true [])
        = true := by decide
    have e3 : dirLeTop ("10x", CVal.cnode 0 true []) ("abc", CVal.cnode 0 true [])
        = true := by decide
    have e4 : dirLeTop ("2y", CVal.cnode 0 true []) ("abc", CVal.cnode 0 true [])
        = true := by decide
    have hrd : renderDirs c6Example = c6Example := rfl
    rw [sortedDirs, if_pos rfl, hrd]
    simp [c6Example, List.mergeSort, List.splitInTwo, List.splitAt,
      List.splitAt.go, List.merge, e1, e2, e3, e4]

/-- Witness for C6's depth-greater-than-one conjunct at a concrete
node and depth. -/
theorem claim_C6_render_order_witness :
    (sortedDirs [("B", CVal.cnode 0 true []), ("a", CVal.cnode 0 true [])] 2).Pairwise
      (fun x y => ciLe x y = true)
    ∧ (sortedDirs [("B", CVal.cnode 0 true []), ("a", CVal.cnode 0 true [])] 2).Perm
      (renderDirs [("B", CVal.cnode 0 true []), ("a", CVal.cnode 0 true [])]) :=
  claim_C6_render_order.2.2.1 _ 2 (by decide)

/-! ### Claim C8: rendering fails before writing when `files` is absent -/

/-- The persisted report read back for rendering (lines 160-161): its
fields are optional, a `none` modelling an absent key. -/
structure ReportJson where
  remote : Option String
  unit : Option String
  files : Option (List Entry)

/-- Python `html_template.format(tree_structure=tree_html)` (line 170):
substitute the template's single named substitution point. -/
def substTemplate (template html : String) : String :=
  template.replace "\x7btree_structure\x7d" html

/-- `generate_html_from_json` (lines 155-170), modelled on the already
read template text and parsed report data.  The `ValueError` of line
164 is raised before the output file `treelist.html` is opened (line
169), so on the error path no rendered output exists; only the
`Except.ok` payload is ever written.  (The `TypeError` branch covers
the builder's bare-value leaf update, unreachable by
`claim_C9_no_bare_values`.) -/
def generate_html_from_json (html_template : String) (json_data : ReportJson) :
    Except String String :=
  match json_data.files with
  | none =>
    Except.error "JSON missing \x27files\x27 key. Use --generate-tree flag."
  | some files =>
    match build_tree_structure files with
    | none => Except.error "TypeError"
    | some tree =>
      Except.ok (substTemplate html_template (generate_tree_html tree 1))

/-- C8.  When the report lacks the `files` key, rendering fails with
the descriptive `ValueError` message and produces no rendered output
(no `Except.ok` payload exists, so nothing is written to
`treelist.html`). -/
theorem claim_C8_missing_files_key (template : String) (data : ReportJson)
    (h : data.files = none) :
    generate_html_from_json template data
      = Except.error "JSON missing \x27files\x27 key. Use --generate-tree flag."
    ∧ ∀ out, generate_html_from_json template data ≠ Except.ok out := by
  have hmain : generate_html_from_json template data
      = Except.error "JSON missing \x27files\x27 key. Use --generate-tree flag." := by
    rw [generate_html_from_json, h]
  refine ⟨hmain, fun out hcon => ?_⟩
  rw [hmain] at hcon
  exact Except.noConfusion hcon

/-- Witness for C8 at a concrete report with no `files` key. -/
theorem claim_C8_missing_files_key_witness :
    generate_html_from_json "<html>\x7btree_structure\x7d</html>"
        ⟨some "remote", some "bytes", none⟩
      = Except.error "JSON missing \x27files\x27 key. Use --generate-tree flag."
    ∧ ∀ out, generate_html_from_json "<html>\x7btree_structure\x7d</html>"
        ⟨some "remote", some "bytes", none⟩ ≠ Except.ok out :=
  claim_C8_missing_files_key "<html>\x7btree_structure\x7d</html>"
    ⟨some "remote", some "bytes", none⟩ rfl
